import Mathlib

/-!
Shallow embedding of the serman binary (de)serialization core (src/lib.rs).

A byte stream is modelled as a `List Nat` of bytes (each `< 256`).  Reading
returns a `PResult`: a value with the remaining stream, a returned I/O error
(the only error the library ever returns, since its error parameter `E` is
constrained by `From<std::io::Error>` alone), or a Rust panic (the library
calls `.unwrap()` in `read_string`).  Writing to a growable buffer never
fails, so encoders are pure functions to `List Nat`.

Rust `String` values are modelled as lists of Unicode scalar values
(`List Nat`); validity of a scalar is `validScalar`.
-/

namespace Serman

/-- Outcome of a fallible read: a value plus the remaining stream, a returned
error built from an I/O failure, or a Rust panic. -/
inductive PResult (α : Type) where
  | ok : α → List Nat → PResult α
  | ioError : PResult α
  | panicked : PResult α
deriving DecidableEq, Repr

/-- A reader consumes a prefix of a byte stream. -/
def Reader (α : Type) : Type := List Nat → PResult α

/-- Sequencing of fallible reads: errors and panics propagate. -/
def PResult.bind {α β : Type} : PResult α → (α → List Nat → PResult β) → PResult β
  | .ok a s, f => f a s
  | .ioError, _ => .ioError
  | .panicked, _ => .panicked

/-- Model of Read::read_exact into a buffer of size n: returns exactly n
bytes or fails with an I/O error (short read). -/
def readExact (n : Nat) : Reader (List Nat) := fun s =>
  if n ≤ s.length then .ok (s.take n) (s.drop n) else .ioError

/-- Little-endian value of a byte list (first byte least significant). -/
def leVal : List Nat → Nat
  | [] => 0
  | b :: rest => b + 256 * leVal rest

/-- Little-endian bytes of a value, fixed width, wrapping modulo 256 per byte. -/
def leBytes (width : Nat) (v : Nat) : List Nat :=
  match width with
  | 0 => []
  | w + 1 => v % 256 :: leBytes w (v / 256)

/-- Model of byteorder read_uN::<LE>: read width bytes, little-endian. -/
def readLE (width : Nat) : Reader Nat := fun s =>
  (readExact width s).bind fun bytes rest => .ok (leVal bytes) rest

def read_u8 : Reader Nat := readLE 1
def read_u16_le : Reader Nat := readLE 2
def read_u32_le : Reader Nat := readLE 4
def read_u64_le : Reader Nat := readLE 8

/-- Two's-complement reinterpretation of a width-bit unsigned value. -/
def toSigned (width : Nat) (u : Nat) : Int :=
  if u < 2 ^ (width - 1) then (u : Int) else (u : Int) - 2 ^ width

/-- Model of byteorder read_iN::<LE>. -/
def readSignedLE (widthBytes : Nat) : Reader Int := fun s =>
  (readLE widthBytes s).bind fun u rest => .ok (toSigned (8 * widthBytes) u) rest

def read_i8 : Reader Int := readSignedLE 1
def read_i16_le : Reader Int := readSignedLE 2
def read_i32_le : Reader Int := readSignedLE 4
def read_i64_le : Reader Int := readSignedLE 8

def write_u8 (v : Nat) : List Nat := leBytes 1 v
def write_u16_le (v : Nat) : List Nat := leBytes 2 v
def write_u32_le (v : Nat) : List Nat := leBytes 4 v
def write_u64_le (v : Nat) : List Nat := leBytes 8 v

/-- Two's-complement width-bit representation of an integer. -/
def toUnsigned (width : Nat) (v : Int) : Nat := (v % ((2 : Int) ^ width)).toNat

def write_i8 (v : Int) : List Nat := leBytes 1 (toUnsigned 8 v)
def write_i16_le (v : Int) : List Nat := leBytes 2 (toUnsigned 16 v)
def write_i32_le (v : Int) : List Nat := leBytes 4 (toUnsigned 32 v)
def write_i64_le (v : Int) : List Nat := leBytes 8 (toUnsigned 64 v)

/-- Readable for bool: read a u32, any nonzero value is true. -/
def bool_de : Reader Bool := fun s =>
  (read_u32_le s).bind fun u rest => .ok (u != 0) rest

/-- Writeable for bool: write 1u32 for true, 0u32 for false. -/
def bool_ser (b : Bool) : List Nat := write_u32_le (if b then 1 else 0)

/-- Free function read_array: decode len elements in order with f, collecting
into a vector; the first failure aborts. -/
def read_array {α : Type} (len : Nat) (f : Reader α) : Reader (List α) :=
  match len with
  | 0 => fun s => .ok [] s
  | n + 1 => fun s =>
    (f s).bind fun v s1 =>
      (read_array n f s1).bind fun vs s2 => .ok (v :: vs) s2

/-- Default Readable::de_vec: delegates to read_array with Self::de. -/
def de_vec_default {α : Type} (f : Reader α) (len : Nat) : Reader (List α) :=
  read_array len f

/-- The u8 specialization of de_vec: allocate a zeroed buffer of len bytes and
fill it with one bulk read_exact. -/
def u8_de_vec (len : Nat) : Reader (List Nat) := readExact len

/-- Loop of the default de_array: iterate over the pre-initialized buffer,
overwriting every slot with a fresh decode. -/
def overwrite_each {α : Type} (f : Reader α) : List α → Reader (List α)
  | [] => fun s => .ok [] s
  | _ :: rest => fun s =>
    (f s).bind fun v s1 =>
      (overwrite_each f rest s1).bind fun vs s2 => .ok (v :: vs) s2

/-- Default Readable::de_array: a buffer of N default values, each slot then
overwritten by Self::de. -/
def de_array_default {α : Type} (f : Reader α) (d : α) (n : Nat) : Reader (List α) :=
  overwrite_each f (List.replicate n d)

/-- The u8 specialization of de_array: a zeroed N-byte buffer filled by one
bulk read_exact. -/
def u8_de_array (n : Nat) : Reader (List Nat) := readExact n

/-- Default Writeable::ser_array: serialize each element in order. -/
def ser_array_default {α : Type} (g : α → List Nat) (v : List α) : List Nat :=
  (v.map g).flatten

/-- Writeable::ser for u8: write the single byte. -/
def u8_ser (b : Nat) : List Nat := write_u8 b

/-- The u8 specialization of ser_array: one bulk write_all of the buffer. -/
def u8_ser_array (v : List Nat) : List Nat := v

/-- Readable for Vec<T>: read a u32 element count, then T::de_vec. -/
def vec_de {α : Type} (f : Reader α) : Reader (List α) := fun s =>
  (read_u32_le s).bind fun len s1 => de_vec_default f len s1

/-- ReadableCtx<usize> for Vec<T>: the count comes from the context, nothing
is read from the stream before the elements. -/
def vec_de_ctx {α : Type} (f : Reader α) (ctx : Nat) : Reader (List α) :=
  de_vec_default f ctx

/-- Writeable for Vec<T>: write the length as u32 then each element. -/
def vec_ser {α : Type} (g : α → List Nat) (v : List α) : List Nat :=
  write_u32_le v.length ++ ser_array_default g v

/-! The string codec.  A Rust String is a list of Unicode scalar values. -/

/-- A Unicode scalar value: below 0x110000 and not a surrogate. -/
def validScalar (c : Nat) : Bool :=
  decide (c < 0x110000) && !(decide (0xD800 ≤ c) && decide (c < 0xE000))

/-- char::encode_utf16: one unit below 0x10000, else a surrogate pair. -/
def encodeUtf16Char (c : Nat) : List Nat :=
  if c < 0x10000 then [c]
  else [0xD800 + (c - 0x10000) / 0x400, 0xDC00 + (c - 0x10000) % 0x400]

/-- str::encode_utf16 over a whole string. -/
def encodeUtf16 (s : List Nat) : List Nat := (s.map encodeUtf16Char).flatten

/-- String::from_utf16: pair surrogates back up, or fail (none) on an
unpaired surrogate. -/
def decodeUtf16 : List Nat → Option (List Nat)
  | [] => some []
  | u :: rest =>
    if u < 0xD800 ∨ 0xE000 ≤ u then
      (decodeUtf16 rest).map fun t => u :: t
    else if u < 0xDC00 then
      match rest with
      | [] => none
      | u2 :: rest2 =>
        if 0xDC00 ≤ u2 ∧ u2 < 0xE000 then
          (decodeUtf16 rest2).map fun t =>
            (0x10000 + (u - 0xD800) * 0x400 + (u2 - 0xDC00)) :: t
        else none
    else none

/-- Whether a byte is a UTF-8 continuation byte (0x80..0xBF). -/
def isCont (b : Nat) : Bool := decide (0x80 ≤ b) && decide (b < 0xC0)

/-- Valid range of the first continuation byte of a 3-byte sequence. -/
def cont2ok (b0 b1 : Nat) : Bool :=
  if b0 = 0xE0 then decide (0xA0 ≤ b1) && decide (b1 < 0xC0)
  else if b0 = 0xED then decide (0x80 ≤ b1) && decide (b1 < 0xA0)
  else isCont b1

/-- Valid range of the first continuation byte of a 4-byte sequence. -/
def cont3ok (b0 b1 : Nat) : Bool :=
  if b0 = 0xF0 then decide (0x90 ≤ b1) && decide (b1 < 0xC0)
  else if b0 = 0xF4 then decide (0x80 ≤ b1) && decide (b1 < 0x90)
  else isCont b1

/-- The Unicode replacement character U+FFFD. -/
def replacementChar : Nat := 0xFFFD

/-- One step of String::from_utf8_lossy: decode one scalar value starting at
lead byte b0 (replacing a maximal invalid subpart by U+FFFD), and return it
with the bytes not yet consumed. -/
def utf8Step (b0 : Nat) (rest : List Nat) : Nat × List Nat :=
  if b0 < 0x80 then (b0, rest)
  else if b0 < 0xC2 then (replacementChar, rest)
  else if b0 < 0xE0 then
    match rest with
    | [] => (replacementChar, [])
    | b1 :: rest1 =>
      if isCont b1 then ((b0 - 0xC0) * 0x40 + (b1 - 0x80), rest1)
      else (replacementChar, b1 :: rest1)
  else if b0 < 0xF0 then
    match rest with
    | [] => (replacementChar, [])
    | b1 :: rest1 =>
      if cont2ok b0 b1 then
        match rest1 with
        | [] => (replacementChar, [])
        | b2 :: rest2 =>
          if isCont b2 then
            ((b0 - 0xE0) * 0x1000 + (b1 - 0x80) * 0x40 + (b2 - 0x80), rest2)
          else (replacementChar, b2 :: rest2)
      else (replacementChar, b1 :: rest1)
  else if b0 < 0xF5 then
    match rest with
    | [] => (replacementChar, [])
    | b1 :: rest1 =>
      if cont3ok b0 b1 then
        match rest1 with
        | [] => (replacementChar, [])
        | b2 :: rest2 =>
          if isCont b2 then
            match rest2 with
            | [] => (replacementChar, [])
            | b3 :: rest3 =>
              if isCont b3 then
                ((b0 - 0xF0) * 0x40000 + (b1 - 0x80) * 0x1000 +
                    (b2 - 0x80) * 0x40 + (b3 - 0x80), rest3)
              else (replacementChar, b3 :: rest3)
          else (replacementChar, b2 :: rest2)
      else (replacementChar, b1 :: rest1)
  else (replacementChar, rest)

/-- Iterate utf8Step; the fuel only serves structural termination and is
always sufficient, since every step consumes at least the lead byte. -/
def utf8LossyFuel : Nat → List Nat → List Nat
  | 0, _ => []
  | _, [] => []
  | fuel + 1, b0 :: rest =>
    (utf8Step b0 rest).1 :: utf8LossyFuel fuel (utf8Step b0 rest).2

/-- String::from_utf8_lossy: decode UTF-8, replacing each maximal invalid
subpart by U+FFFD. -/
def utf8Lossy (v : List Nat) : List Nat := utf8LossyFuel v.length v

/-- Free function read_string: len is the i32 read from the stream.  A
negative length selects the 16-bit path, which computes (-len) as usize; at
i32::MIN that negation overflows, so the program panics (in a debug build on
the negation itself; in release the value wraps to 2^64 - 2^31 and the
Vec::with_capacity allocation panics on capacity overflow) — the model panics
there.  For the remaining negative lengths it reads -len units and applies a
strict (unwrapping, hence panicking) UTF-16 decode; a nonnegative length
selects the 8-bit path with a lossy UTF-8 decode.  Both paths truncate the
decoded buffer at its first zero unit and consume the full declared payload. -/
def read_string (len : Int) : Reader (List Nat) := fun s =>
  if len < 0 then
    if len = -(2 ^ 31) then .panicked
    else
      (read_array (-len).toNat read_u16_le s).bind fun chars rest =>
        match decodeUtf16 (chars.takeWhile fun c => c != 0) with
        | some str => .ok str rest
        | none => .panicked
  else
    (readExact len.toNat s).bind fun chars rest =>
      .ok (utf8Lossy (chars.takeWhile fun c => c != 0)) rest

/-- Free function write_string: 0 prefix for the empty string; for a pure
ASCII string of length L the prefix L+1, the raw bytes and a zero byte; else
the UTF-16 units with prefix -(units+1) and a zero unit. -/
def write_string (value : List Nat) : List Nat :=
  if value = [] then
    write_u32_le 0
  else if value.all fun c => decide (c < 0x80) then
    write_u32_le (value.length + 1) ++ value ++ [0]
  else
    write_i32_le (-(((encodeUtf16 value).length : Int) + 1)) ++
      ((encodeUtf16 value).map write_u16_le).flatten ++ write_u16_le 0

/-- Readable for String: read an i32 length prefix, then read_string. -/
def string_de : Reader (List Nat) := fun s =>
  (read_i32_le s).bind fun len rest => read_string len rest

/-- Writeable for String (and &str): delegates to write_string. -/
def string_ser (v : List Nat) : List Nat := write_string v

end Serman

namespace Serman

/-! Basic lemmas about the primitive readers and writers. -/

theorem readExact_append (xs r : List Nat) :
    readExact xs.length (xs ++ r) = .ok xs r := by
  simp [readExact, List.take_left, List.drop_left]

theorem leBytes_length (w v : Nat) : (leBytes w v).length = w := by
  induction w generalizing v with
  | zero => rfl
  | succ w ih => simp [leBytes, ih]

theorem leVal_leBytes (w v : Nat) : leVal (leBytes w v) = v % 256 ^ w := by
  induction w generalizing v with
  | zero => simp [leBytes, leVal, Nat.mod_one]
  | succ w ih =>
    simp only [leBytes, leVal, ih]
    conv_rhs => rw [pow_succ, mul_comm (256 ^ w) 256, Nat.mod_mul]

theorem readLE_append (w v : Nat) (r : List Nat) (h : v < 256 ^ w) :
    readLE w (leBytes w v ++ r) = .ok v r := by
  simp only [readLE]
  have he := readExact_append (leBytes w v) r
  rw [leBytes_length] at he
  rw [he]
  simp [PResult.bind, leVal_leBytes, Nat.mod_eq_of_lt h]

theorem u8_roundtrip (v : Nat) (r : List Nat) (h : v < 2 ^ 8) :
    read_u8 (write_u8 v ++ r) = .ok v r := by
  exact readLE_append 1 v r (by norm_num at h ⊢; omega)

theorem u16_roundtrip (v : Nat) (r : List Nat) (h : v < 2 ^ 16) :
    read_u16_le (write_u16_le v ++ r) = .ok v r := by
  exact readLE_append 2 v r (by norm_num at h ⊢; omega)

theorem u32_roundtrip (v : Nat) (r : List Nat) (h : v < 2 ^ 32) :
    read_u32_le (write_u32_le v ++ r) = .ok v r := by
  exact readLE_append 4 v r (by norm_num at h ⊢; omega)

theorem u64_roundtrip (v : Nat) (r : List Nat) (h : v < 2 ^ 64) :
    read_u64_le (write_u64_le v ++ r) = .ok v r := by
  exact readLE_append 8 v r (by norm_num at h ⊢; omega)

theorem toUnsigned_lt_num (width bound : Nat) (v : Int)
    (hb : ((2 : Int) ^ width) = (bound : Int)) : toUnsigned width v < bound := by
  have h2 : (0 : Int) < 2 ^ width := by positivity
  have h3 := Int.emod_lt_of_pos v h2
  have h4 := Int.emod_nonneg v (by positivity : ((2 : Int) ^ width) ≠ 0)
  rw [hb] at h3 h4
  unfold toUnsigned
  rw [hb]
  omega

theorem i8_roundtrip (v : Int) (r : List Nat)
    (hlo : -(2 ^ 7) ≤ v) (hhi : v < 2 ^ 7) :
    read_i8 (write_i8 v ++ r) = .ok v r := by
  have hlt : toUnsigned 8 v < 256 ^ 1 := toUnsigned_lt_num 8 _ v (by norm_num)
  simp only [read_i8, write_i8, readSignedLE]
  rw [readLE_append 1 _ r hlt]
  simp only [PResult.bind, PResult.ok.injEq, and_true]
  unfold toSigned toUnsigned
  norm_num at hlo hhi ⊢
  split <;> omega

theorem i16_roundtrip (v : Int) (r : List Nat)
    (hlo : -(2 ^ 15) ≤ v) (hhi : v < 2 ^ 15) :
    read_i16_le (write_i16_le v ++ r) = .ok v r := by
  have hlt : toUnsigned 16 v < 256 ^ 2 := toUnsigned_lt_num 16 _ v (by norm_num)
  simp only [read_i16_le, write_i16_le, readSignedLE]
  rw [readLE_append 2 _ r hlt]
  simp only [PResult.bind, PResult.ok.injEq, and_true]
  unfold toSigned toUnsigned
  norm_num at hlo hhi ⊢
  split <;> omega

theorem i32_roundtrip (v : Int) (r : List Nat)
    (hlo : -(2 ^ 31) ≤ v) (hhi : v < 2 ^ 31) :
    read_i32_le (write_i32_le v ++ r) = .ok v r := by
  have hlt : toUnsigned 32 v < 256 ^ 4 := toUnsigned_lt_num 32 _ v (by norm_num)
  simp only [read_i32_le, write_i32_le, readSignedLE]
  rw [readLE_append 4 _ r hlt]
  simp only [PResult.bind, PResult.ok.injEq, and_true]
  unfold toSigned toUnsigned
  norm_num at hlo hhi ⊢
  split <;> omega

theorem i64_roundtrip (v : Int) (r : List Nat)
    (hlo : -(2 ^ 63) ≤ v) (hhi : v < 2 ^ 63) :
    read_i64_le (write_i64_le v ++ r) = .ok v r := by
  have hlt : toUnsigned 64 v < 256 ^ 8 := toUnsigned_lt_num 64 _ v (by norm_num)
  simp only [read_i64_le, write_i64_le, readSignedLE]
  rw [readLE_append 8 _ r hlt]
  simp only [PResult.bind, PResult.ok.injEq, and_true]
  unfold toSigned toUnsigned
  norm_num at hlo hhi ⊢
  split <;> omega

theorem bool_roundtrip (b : Bool) (r : List Nat) :
    bool_de (bool_ser b ++ r) = .ok b r := by
  cases b
  · show bool_de (write_u32_le 0 ++ r) = .ok false r
    simp only [bool_de]
    rw [u32_roundtrip 0 r (by norm_num)]
    rfl
  · show bool_de (write_u32_le 1 ++ r) = .ok true r
    simp only [bool_de]
    rw [u32_roundtrip 1 r (by norm_num)]
    rfl

/-! Lemmas about containers. -/

theorem read_array_join {α : Type} (f : Reader α) (g : α → List Nat)
    (v : List α) (r : List Nat)
    (h : ∀ a ∈ v, ∀ t, f (g a ++ t) = .ok a t) :
    read_array v.length f ((v.map g).flatten ++ r) = .ok v r := by
  induction v with
  | nil => simp [read_array]
  | cons a v ih =>
    simp only [List.map_cons, List.flatten_cons, List.length_cons, read_array,
      List.append_assoc]
    rw [h a (by simp) ((v.map g).flatten ++ r)]
    simp only [PResult.bind]
    rw [ih (fun a ha t => h a (by simp [ha]) t)]

theorem read_u8_cons (b : Nat) (t : List Nat) : read_u8 (b :: t) = .ok b t := by
  simp [read_u8, readLE, readExact, PResult.bind, leVal]

theorem read_u8_nil : read_u8 [] = .ioError := by
  simp [read_u8, readLE, readExact, PResult.bind]

theorem de_vec_default_u8_eq (len : Nat) (s : List Nat) :
    de_vec_default read_u8 len s = u8_de_vec len s := by
  induction len generalizing s with
  | zero => simp [de_vec_default, read_array, u8_de_vec, readExact]
  | succ n ih =>
    cases s with
    | nil =>
      simp [de_vec_default, read_array, u8_de_vec, readExact, read_u8_nil,
        PResult.bind]
    | cons b t =>
      simp only [de_vec_default, read_array, read_u8_cons b t, PResult.bind]
      have hih := ih t
      simp only [de_vec_default] at hih
      rw [hih]
      simp only [u8_de_vec, readExact, List.length_cons]
      by_cases hn : n ≤ t.length
      · simp [hn, Nat.succ_le_succ hn, PResult.bind]
      · have : ¬ n + 1 ≤ t.length + 1 := by omega
        simp [hn, this, PResult.bind]

theorem de_array_default_eq_read_array {α : Type} (f : Reader α) (d : α)
    (n : Nat) (s : List Nat) :
    de_array_default f d n s = read_array n f s := by
  induction n generalizing s with
  | zero => rfl
  | succ n ih =>
    simp only [de_array_default, List.replicate, overwrite_each, read_array]
    cases f s with
    | ok v s1 =>
      simp only [PResult.bind]
      have hih := ih s1
      simp only [de_array_default] at hih
      rw [hih]
    | ioError => rfl
    | panicked => rfl

theorem ser_array_default_u8_eq (v : List Nat) (h : ∀ b ∈ v, b < 256) :
    ser_array_default u8_ser v = u8_ser_array v := by
  induction v with
  | nil => rfl
  | cons b v ih =>
    have hb : b % 256 = b := Nat.mod_eq_of_lt (h b (by simp))
    simp only [ser_array_default, u8_ser_array, List.map_cons, List.flatten_cons,
      u8_ser, write_u8, leBytes, hb] at *
    simp only [List.cons_append, List.nil_append, List.cons.injEq, true_and]
    exact ih (fun x hx => h x (by simp [hx]))

theorem vec_roundtrip_aux {α : Type} (f : Reader α) (g : α → List Nat)
    (v : List α) (r : List Nat) (hlen : v.length < 2 ^ 32)
    (h : ∀ a ∈ v, ∀ t, f (g a ++ t) = .ok a t) :
    vec_de f (vec_ser g v ++ r) = .ok v r := by
  simp only [vec_de, vec_ser, ser_array_default, List.append_assoc]
  rw [u32_roundtrip v.length _ hlen]
  simp only [PResult.bind, de_vec_default]
  exact read_array_join f g v r h

theorem ser_array_default_u32_length (w : List Nat) :
    (ser_array_default write_u32_le w).length = 4 * w.length := by
  induction w with
  | nil => rfl
  | cons a w ih =>
    simp only [ser_array_default, List.map_cons, List.flatten_cons,
      List.length_append, List.length_cons] at *
    rw [ih, show (write_u32_le a).length = 4 from leBytes_length 4 _]
    ring

/-! Lemmas about zero-terminator truncation. -/

theorem takeWhile_append_zero (pre post : List Nat) (h : ∀ b ∈ pre, b ≠ 0) :
    (pre ++ 0 :: post).takeWhile (fun c => c != 0) = pre := by
  induction pre with
  | nil => simp
  | cons a pre ih =>
    have ha : (a != 0) = true := by simpa using h a (by simp)
    simp only [List.cons_append, List.takeWhile_cons, ha, if_true]
    rw [ih (fun b hb => h b (by simp [hb]))]

theorem takeWhile_ne_zero_self (v : List Nat) (h : ∀ b ∈ v, b ≠ 0) :
    v.takeWhile (fun c => c != 0) = v := by
  induction v with
  | nil => rfl
  | cons a v ih =>
    have ha : (a != 0) = true := by simpa using h a (by simp)
    simp only [List.takeWhile_cons, ha, if_true]
    rw [ih (fun b hb => h b (by simp [hb]))]

theorem ne_zero_of_mem_takeWhile {l : List Nat} {c : Nat}
    (h : c ∈ l.takeWhile (fun x => x != 0)) : c ≠ 0 := by
  have := List.mem_takeWhile_imp h
  simpa using this

/-! Lemmas about the lossy UTF-8 decoder. -/

theorem utf8Step_ascii (b0 : Nat) (rest : List Nat) (h : b0 < 0x80) :
    utf8Step b0 rest = (b0, rest) := by
  unfold utf8Step
  rw [if_pos h]

theorem utf8Step_snd_length (b0 : Nat) (rest : List Nat) :
    (utf8Step b0 rest).2.length ≤ rest.length := by
  unfold utf8Step
  repeat' split
  all_goals simp_all
  all_goals omega

theorem utf8Step_snd_mem (b0 : Nat) (rest : List Nat) (x : Nat)
    (hx : x ∈ (utf8Step b0 rest).2) : x ∈ rest := by
  unfold utf8Step at hx
  repeat' split at hx
  all_goals simp_all

theorem cont2ok_pos (b0 b1 : Nat) (h : cont2ok b0 b1 = true) (hb : ¬ b0 < 0xE0) :
    0 < (b0 - 0xE0) * 0x1000 + (b1 - 0x80) * 0x40 := by
  unfold cont2ok at h
  by_cases h0 : b0 = 0xE0
  · rw [if_pos h0] at h
    simp only [Bool.and_eq_true, decide_eq_true_eq] at h
    subst h0
    omega
  · rw [if_neg h0] at h
    have : 0xE1 ≤ b0 := by omega
    have : 0x1000 ≤ (b0 - 0xE0) * 0x1000 := by
      calc 0x1000 = 1 * 0x1000 := by ring
        _ ≤ (b0 - 0xE0) * 0x1000 := Nat.mul_le_mul_right _ (by omega)
    omega

theorem cont3ok_pos (b0 b1 : Nat) (h : cont3ok b0 b1 = true) (hb : ¬ b0 < 0xF0) :
    0 < (b0 - 0xF0) * 0x40000 + (b1 - 0x80) * 0x1000 := by
  unfold cont3ok at h
  by_cases h0 : b0 = 0xF0
  · rw [if_pos h0] at h
    simp only [Bool.and_eq_true, decide_eq_true_eq] at h
    subst h0
    omega
  · rw [if_neg h0] at h
    have : 0xF1 ≤ b0 := by omega
    have : 0x40000 ≤ (b0 - 0xF0) * 0x40000 := by
      calc 0x40000 = 1 * 0x40000 := by ring
        _ ≤ (b0 - 0xF0) * 0x40000 := Nat.mul_le_mul_right _ (by omega)
    omega

theorem utf8Step_fst_ne_zero (b0 : Nat) (rest : List Nat) (h : b0 ≠ 0) :
    (utf8Step b0 rest).1 ≠ 0 := by
  unfold utf8Step
  repeat' split
  all_goals simp_all [replacementChar, isCont]
  · omega
  · have := cont2ok_pos b0 _ (by assumption) (by omega)
    omega
  · have := cont3ok_pos b0 _ (by assumption) (by omega)
    omega

theorem utf8LossyFuel_ascii (fuel : Nat) : ∀ v : List Nat, v.length ≤ fuel →
    (∀ b ∈ v, b < 0x80) → utf8LossyFuel fuel v = v := by
  induction fuel with
  | zero =>
    intro v hv _
    cases v with
    | nil => rfl
    | cons a v => simp at hv
  | succ n ih =>
    intro v hv hall
    cases v with
    | nil => rfl
    | cons b0 rest =>
      simp only [utf8LossyFuel, utf8Step_ascii b0 rest (hall b0 (by simp))]
      rw [ih rest (by simpa using hv) (fun x hx => hall x (by simp [hx]))]

theorem utf8Lossy_ascii (v : List Nat) (h : ∀ b ∈ v, b < 0x80) :
    utf8Lossy v = v :=
  utf8LossyFuel_ascii v.length v le_rfl h

theorem utf8LossyFuel_ne_zero (fuel : Nat) : ∀ v : List Nat, (∀ b ∈ v, b ≠ 0) →
    ∀ c ∈ utf8LossyFuel fuel v, c ≠ 0 := by
  induction fuel with
  | zero =>
    intro v _ c hc
    cases v with
    | nil => simp [utf8LossyFuel] at hc
    | cons a v => simp [utf8LossyFuel] at hc
  | succ n ih =>
    intro v hv c hc
    cases v with
    | nil => simp [utf8LossyFuel] at hc
    | cons b0 rest =>
      simp only [utf8LossyFuel, List.mem_cons] at hc
      rcases hc with rfl | hc
      · exact utf8Step_fst_ne_zero b0 rest (hv b0 (by simp))
      · exact ih _
          (fun x hx => hv x (List.mem_cons_of_mem b0 (utf8Step_snd_mem b0 rest x hx)))
          c hc

theorem utf8Lossy_ne_zero (v : List Nat) (h : ∀ b ∈ v, b ≠ 0) :
    ∀ c ∈ utf8Lossy v, c ≠ 0 :=
  utf8LossyFuel_ne_zero v.length v h

/-! Lemmas about the UTF-16 codec. -/

theorem validScalar_iff (c : Nat) :
    validScalar c = true ↔ c < 0x110000 ∧ ¬(0xD800 ≤ c ∧ c < 0xE000) := by
  unfold validScalar
  constructor
  · intro h
    simp only [Bool.and_eq_true, decide_eq_true_eq, Bool.not_eq_true', Bool.and_eq_false_iff,
      decide_eq_false_iff_not] at h
    omega
  · intro h
    simp only [Bool.and_eq_true, decide_eq_true_eq, Bool.not_eq_true', Bool.and_eq_false_iff,
      decide_eq_false_iff_not]
    omega

theorem decodeUtf16_cons (u : Nat) (rest : List Nat) :
    decodeUtf16 (u :: rest) =
      if u < 0xD800 ∨ 0xE000 ≤ u then (decodeUtf16 rest).map fun t => u :: t
      else if u < 0xDC00 then
        match rest with
        | [] => none
        | u2 :: rest2 =>
          if 0xDC00 ≤ u2 ∧ u2 < 0xE000 then
            (decodeUtf16 rest2).map fun t =>
              (0x10000 + (u - 0xD800) * 0x400 + (u2 - 0xDC00)) :: t
          else none
      else none := by
  rw [decodeUtf16.eq_def]

theorem decodeUtf16_cons2 (u u2 : Nat) (rest2 : List Nat) :
    decodeUtf16 (u :: u2 :: rest2) =
      if u < 0xD800 ∨ 0xE000 ≤ u then
        (decodeUtf16 (u2 :: rest2)).map fun t => u :: t
      else if u < 0xDC00 then
        if 0xDC00 ≤ u2 ∧ u2 < 0xE000 then
          (decodeUtf16 rest2).map fun t =>
            (0x10000 + (u - 0xD800) * 0x400 + (u2 - 0xDC00)) :: t
        else none
      else none := by
  rw [decodeUtf16.eq_def]

theorem encodeUtf16Char_units (c : Nat) (hval : validScalar c = true) (hnz : c ≠ 0) :
    ∀ u ∈ encodeUtf16Char c, u ≠ 0 ∧ u < 2 ^ 16 := by
  intro u hu
  have hv := (validScalar_iff c).mp hval
  unfold encodeUtf16Char at hu
  by_cases hc : c < 0x10000
  · rw [if_pos hc] at hu
    simp only [List.mem_singleton] at hu
    subst hu
    exact ⟨hnz, by omega⟩
  · rw [if_neg hc] at hu
    simp only [List.mem_cons, List.mem_singleton, List.not_mem_nil, or_false] at hu
    have h17 : c < 0x110000 := hv.1
    have hq : (c - 0x10000) / 0x400 < 0x400 := by omega
    have hr : (c - 0x10000) % 0x400 < 0x400 := by omega
    rcases hu with hu | hu <;> constructor <;> omega

theorem encodeUtf16_units (v : List Nat) (hval : ∀ c ∈ v, validScalar c = true)
    (hnz : ∀ c ∈ v, c ≠ 0) : ∀ u ∈ encodeUtf16 v, u ≠ 0 ∧ u < 2 ^ 16 := by
  intro u hu
  simp only [encodeUtf16, List.mem_flatten, List.mem_map] at hu
  obtain ⟨l, ⟨c, hc, rfl⟩, hul⟩ := hu
  exact encodeUtf16Char_units c (hval c hc) (hnz c hc) u hul

theorem encodeUtf16_length_le (v : List Nat) :
    (encodeUtf16 v).length ≤ 2 * v.length := by
  induction v with
  | nil => simp [encodeUtf16]
  | cons c v ih =>
    simp only [encodeUtf16, List.map_cons, List.flatten_cons, List.length_append,
      List.length_cons] at ih ⊢
    have hc : (encodeUtf16Char c).length ≤ 2 := by
      unfold encodeUtf16Char
      split <;> simp
    omega

theorem encodeUtf16_ne_nil (v : List Nat) (hv : v ≠ []) : encodeUtf16 v ≠ [] := by
  cases v with
  | nil => exact absurd rfl hv
  | cons c v =>
    simp only [encodeUtf16, List.map_cons, List.flatten_cons]
    have : encodeUtf16Char c ≠ [] := by
      unfold encodeUtf16Char
      split <;> simp
    intro hcon
    rcases List.append_eq_nil.mp hcon with ⟨h1, _⟩
    exact this h1

theorem decodeUtf16_encodeUtf16 (v : List Nat) (h : ∀ c ∈ v, validScalar c = true) :
    decodeUtf16 (encodeUtf16 v) = some v := by
  induction v with
  | nil => rfl
  | cons c v ih =>
    have hv := (validScalar_iff c).mp (h c (by simp))
    have ihv := ih (fun x hx => h x (by simp [hx]))
    simp only [encodeUtf16, List.map_cons, List.flatten_cons] at ihv ⊢
    by_cases hc : c < 0x10000
    · rw [show encodeUtf16Char c = [c] from by unfold encodeUtf16Char; rw [if_pos hc]]
      simp only [List.cons_append, List.nil_append]
      rw [decodeUtf16_cons, if_pos (by omega : c < 0xD800 ∨ 0xE000 ≤ c), ihv]
      rfl
    · have h17 : c < 0x110000 := hv.1
      have hq : (c - 0x10000) / 0x400 < 0x400 := by omega
      have hr : (c - 0x10000) % 0x400 < 0x400 := by omega
      rw [show encodeUtf16Char c =
          [0xD800 + (c - 0x10000) / 0x400, 0xDC00 + (c - 0x10000) % 0x400] from by
        unfold encodeUtf16Char; rw [if_neg hc]]
      simp only [List.cons_append, List.nil_append]
      rw [decodeUtf16_cons2]
      rw [if_neg (by omega : ¬(0xD800 + (c - 0x10000) / 0x400 < 0xD800 ∨
        0xE000 ≤ 0xD800 + (c - 0x10000) / 0x400))]
      rw [if_pos (by omega : 0xD800 + (c - 0x10000) / 0x400 < 0xDC00)]
      rw [if_pos (by omega : 0xDC00 ≤ 0xDC00 + (c - 0x10000) % 0x400 ∧
        0xDC00 + (c - 0x10000) % 0x400 < 0xE000)]
      rw [ihv]
      have hx : 0x10000 + (0xD800 + (c - 0x10000) / 0x400 - 0xD800) * 0x400 +
          (0xDC00 + (c - 0x10000) % 0x400 - 0xDC00) = c := by omega
      simp only [Option.map_some', hx]

theorem decodeUtf16_ne_zero (n : Nat) : ∀ u out : List Nat, u.length ≤ n →
    decodeUtf16 u = some out → (∀ b ∈ u, b ≠ 0) → ∀ c ∈ out, c ≠ 0 := by
  induction n with
  | zero =>
    intro u out hu hout hmem
    cases u with
    | nil =>
      simp only [decodeUtf16, Option.some.injEq] at hout
      subst hout
      simp
    | cons a rest => simp at hu
  | succ n ih =>
    intro u out hu hout hmem
    cases u with
    | nil =>
      simp only [decodeUtf16, Option.some.injEq] at hout
      subst hout
      simp
    | cons a rest =>
      by_cases h1 : a < 0xD800 ∨ 0xE000 ≤ a
      · rw [decodeUtf16_cons, if_pos h1] at hout
        cases hrest : decodeUtf16 rest with
        | none => rw [hrest] at hout; simp at hout
        | some t =>
          rw [hrest] at hout
          simp only [Option.map_some', Option.some.injEq] at hout
          subst hout
          intro c hc
          rcases List.mem_cons.mp hc with rfl | hc
          · exact hmem c (by simp)
          · exact ih rest t (by simp at hu; omega) hrest
              (fun b hb => hmem b (by simp [hb])) c hc
      · by_cases h2 : a < 0xDC00
        · cases rest with
          | nil =>
            rw [decodeUtf16_cons, if_neg h1, if_pos h2] at hout
            simp at hout
          | cons a2 rest2 =>
            rw [decodeUtf16_cons2, if_neg h1, if_pos h2] at hout
            by_cases h3 : 0xDC00 ≤ a2 ∧ a2 < 0xE000
            · rw [if_pos h3] at hout
              cases hrest : decodeUtf16 rest2 with
              | none => rw [hrest] at hout; simp at hout
              | some t =>
                rw [hrest] at hout
                simp only [Option.map_some', Option.some.injEq] at hout
                subst hout
                intro c hc
                rcases List.mem_cons.mp hc with hc2 | hc
                · omega
                · exact ih rest2 t (by simp at hu; omega) hrest
                    (fun b hb => hmem b (by simp [hb])) c hc
            · rw [if_neg h3] at hout; simp at hout
        · rw [decodeUtf16_cons, if_neg h1, if_neg h2] at hout
          simp at hout

/-! Lemmas about the string codec at the stream level. -/

theorem read_i32_of_write_u32 (n : Nat) (r : List Nat) (h : n < 2 ^ 31) :
    read_i32_le (write_u32_le n ++ r) = .ok (n : Int) r := by
  simp only [read_i32_le, readSignedLE, write_u32_le]
  rw [readLE_append 4 n r (by norm_num at h ⊢; omega)]
  simp only [PResult.bind, PResult.ok.injEq, and_true]
  unfold toSigned
  norm_num at h ⊢
  omega

theorem read_array_u16 (units r : List Nat) (h : ∀ u ∈ units, u < 2 ^ 16) :
    read_array units.length read_u16_le ((units.map write_u16_le).flatten ++ r) =
      .ok units r :=
  read_array_join read_u16_le write_u16_le units r
    (fun a ha t => u16_roundtrip a t (h a ha))

theorem read_string_nonneg (n : Nat) (payload r : List Nat)
    (hlen : payload.length = n) :
    read_string (n : Int) (payload ++ r) =
      .ok (utf8Lossy (payload.takeWhile fun c => c != 0)) r := by
  simp only [read_string]
  rw [if_neg (by omega : ¬ (n : Int) < 0), Int.toNat_natCast]
  rw [← hlen, readExact_append]
  rfl

theorem read_string_neg (n : Nat) (units r : List Nat) (hn : units.length = n)
    (hpos : 0 < n) (hne : n ≠ 2 ^ 31) (h16 : ∀ u ∈ units, u < 2 ^ 16) :
    read_string (-(n : Int)) ((units.map write_u16_le).flatten ++ r) =
      match decodeUtf16 (units.takeWhile fun c => c != 0) with
      | some str => .ok str r
      | none => .panicked := by
  simp only [read_string]
  rw [if_pos (by omega : -(n : Int) < 0)]
  rw [if_neg (by omega : ¬ -(n : Int) = -(2 ^ 31))]
  have htn : (-(-(n : Int))).toNat = n := by omega
  rw [htn, ← hn, read_array_u16 units r h16]
  rfl

/-! Claim theorems. -/

/-- C4: for every declared string length prefix and a payload whose first zero
unit/byte comes before the declared end, read_string returns exactly the
characters decoded from the units before that zero (narrow path
unconditionally; wide path whenever the UTF-16 decode of that portion
succeeds), and it consumes the full declared payload: the remaining stream is
exactly what follows the declared number of units.  The declared unit count
is bounded by 2^31 so that the prefix is a representable i32 (at magnitude
2^31 the wide path would be the prefix i32::MIN, where the program panics on
the negation overflow instead of decoding). -/
theorem read_string_truncates_and_consumes (pre post r : List Nat)
    (hpre : ∀ b ∈ pre, b ≠ 0)
    (hcount : pre.length + 1 + post.length < 2 ^ 31) :
    (read_string ((pre.length + 1 + post.length : Nat) : Int)
        ((pre ++ 0 :: post) ++ r) = .ok (utf8Lossy pre) r)
    ∧ (∀ out, decodeUtf16 pre = some out →
        (∀ u ∈ pre, u < 2 ^ 16) → (∀ u ∈ post, u < 2 ^ 16) →
        read_string (-((pre.length + 1 + post.length : Nat) : Int))
          (((pre ++ 0 :: post).map write_u16_le).flatten ++ r) = .ok out r) := by
  constructor
  · have h := read_string_nonneg (pre.length + 1 + post.length) (pre ++ 0 :: post) r
      (by simp only [List.length_append, List.length_cons]; omega)
    rw [takeWhile_append_zero pre post hpre] at h
    exact h
  · intro out hout h16p h16q
    have h16 : ∀ u ∈ pre ++ 0 :: post, u < 2 ^ 16 := by
      intro u hu
      rcases List.mem_append.mp hu with hu | hu
      · exact h16p u hu
      · rcases List.mem_cons.mp hu with rfl | hu
        · norm_num
        · exact h16q u hu
    have h := read_string_neg (pre.length + 1 + post.length) (pre ++ 0 :: post) r
      (by simp only [List.length_append, List.length_cons]; omega) (by omega)
      (by omega) h16
    rw [takeWhile_append_zero pre post hpre, hout] at h
    exact h

/-- C4 witness: a concrete narrow payload with an embedded zero before the
declared end. -/
theorem read_string_truncates_witness :
    read_string ((([97] : List Nat).length + 1 + ([98] : List Nat).length : Nat) : Int)
      (([97] ++ 0 :: [98]) ++ [7]) = .ok (utf8Lossy [97]) [7] :=
  (read_string_truncates_and_consumes [97] [98] [7] (by decide) (by norm_num)).1

/-- C1 counterexample: on the stream with i32 prefix -2 followed by the units
0xD800, 0x0000 (an unpaired high surrogate before the zero terminator),
String decode does not return any error value; it panics (the implementation
unwraps String::from_utf16), modelled as the panicked outcome, which is
neither a returned decode-validity error nor an I/O error. -/
theorem string_de_unpaired_surrogate_cex :
    string_de [0xFE, 0xFF, 0xFF, 0xFF, 0x00, 0xD8, 0x00, 0x00] = .panicked := by
  decide

/-- C1 amended: when the units before the first zero unit of a negative-length
payload do not decode as UTF-16, read_string panics (diverges); it returns
neither a value nor an error, so no decode-validity error value distinct from
an I/O failure is ever produced. -/
theorem read_string_invalid_utf16_panics (pre post r : List Nat)
    (hpre : ∀ b ∈ pre, b ≠ 0) (h16p : ∀ u ∈ pre, u < 2 ^ 16)
    (h16q : ∀ u ∈ post, u < 2 ^ 16) (hbad : decodeUtf16 pre = none) :
    read_string (-((pre.length + 1 + post.length : Nat) : Int))
      (((pre ++ 0 :: post).map write_u16_le).flatten ++ r) = .panicked := by
  have h16 : ∀ u ∈ pre ++ 0 :: post, u < 2 ^ 16 := by
    intro u hu
    rcases List.mem_append.mp hu with hu | hu
    · exact h16p u hu
    · rcases List.mem_cons.mp hu with rfl | hu
      · norm_num
      · exact h16q u hu
  by_cases hbig : pre.length + 1 + post.length = 2 ^ 31
  · simp only [read_string]
    rw [if_pos (by omega : -((pre.length + 1 + post.length : Nat) : Int) < 0)]
    rw [if_pos (by omega : -((pre.length + 1 + post.length : Nat) : Int) = -(2 ^ 31))]
  · have h := read_string_neg (pre.length + 1 + post.length) (pre ++ 0 :: post) r
      (by simp only [List.length_append, List.length_cons]; omega) (by omega)
      hbig h16
    rw [takeWhile_append_zero pre post hpre, hbad] at h
    exact h

/-- C1 witness for the amended claim: the unpaired high surrogate 0xD800. -/
theorem read_string_invalid_utf16_panics_witness :
    read_string (-((([0xD800] : List Nat).length + 1 + ([] : List Nat).length : Nat) : Int))
      ((([0xD800] ++ 0 :: ([] : List Nat)).map write_u16_le).flatten ++ []) = .panicked :=
  read_string_invalid_utf16_panics [0xD800] [] [] (by decide) (by decide)
    (by decide) (by decide)

/-- C2 counterexample: the one-character string U+0000 is single-byte
representable, but decode(encode("\0")) is the empty string, not "\0": the
encoder embeds the NUL byte in the payload and the decoder truncates at it. -/
theorem string_roundtrip_nul_cex :
    string_de (string_ser [0] ++ []) = .ok [] [] ∧ ([] : List Nat) ≠ [0] := by
  constructor
  · decide
  · decide

/-- C2 amended: decode(encode(s)) = s for every string s (of each of the four
spec categories) that contains no NUL character, with s short enough that the
length prefix does not wrap (the code casts the length to 32 bits). -/
theorem string_roundtrip_no_nul (v r : List Nat)
    (hval : ∀ c ∈ v, validScalar c = true)
    (hnz : ∀ c ∈ v, c ≠ 0)
    (hlen : v.length < 2 ^ 30) :
    string_de (string_ser v ++ r) = .ok v r := by
  by_cases hemp : v = []
  · subst hemp
    show string_de (write_string [] ++ r) = .ok [] r
    rw [show write_string [] = write_u32_le 0 from by unfold write_string; rw [if_pos rfl]]
    simp only [string_de]
    rw [read_i32_of_write_u32 0 r (by norm_num)]
    simp only [PResult.bind]
    have h0 := read_string_nonneg 0 [] r rfl
    simp only [List.nil_append] at h0
    rw [h0]
    rfl
  · by_cases hascii : ∀ c ∈ v, c < 0x80
    · have hall : (v.all fun c => decide (c < 0x80)) = true := by
        simp only [List.all_eq_true, decide_eq_true_eq]
        exact hascii
      rw [show string_ser v = write_u32_le (v.length + 1) ++ v ++ [0] from by
        unfold string_ser write_string
        rw [if_neg hemp, if_pos hall]]
      simp only [string_de, List.append_assoc]
      rw [read_i32_of_write_u32 (v.length + 1) _ (by norm_num at hlen ⊢; omega)]
      simp only [PResult.bind]
      have h1 := read_string_nonneg (v.length + 1) (v ++ [0]) r (by simp)
      simp only [List.append_assoc, List.cons_append, List.nil_append] at h1
      simp only [List.singleton_append]
      rw [h1, takeWhile_append_zero v [] hnz, utf8Lossy_ascii v hascii]
    · have hall : (v.all fun c => decide (c < 0x80)) = false := by
        rw [Bool.eq_false_iff]
        intro hcon
        exact hascii (by simpa using hcon)
      rw [show string_ser v = write_i32_le (-(((encodeUtf16 v).length : Int) + 1)) ++
          ((encodeUtf16 v).map write_u16_le).flatten ++ write_u16_le 0 from by
        unfold string_ser write_string
        rw [if_neg hemp, if_neg (by simp [hall] :
          ¬ (v.all fun c => decide (c < 0x80)) = true)]]
      have hU := encodeUtf16_length_le v
      have hnzu : ∀ u ∈ encodeUtf16 v, u ≠ 0 :=
        fun u hu => (encodeUtf16_units v hval hnz u hu).1
      have h16 : ∀ u ∈ encodeUtf16 v ++ [0], u < 2 ^ 16 := by
        intro u hu
        rcases List.mem_append.mp hu with hu | hu
        · exact (encodeUtf16_units v hval hnz u hu).2
        · simp only [List.mem_singleton] at hu
          subst hu
          norm_num
      simp only [string_de, List.append_assoc]
      rw [i32_roundtrip (-(((encodeUtf16 v).length : Int) + 1)) _
        (by norm_num at hlen ⊢; omega) (by norm_num at hlen ⊢; omega)]
      simp only [PResult.bind]
      have h2 := read_string_neg ((encodeUtf16 v).length + 1) (encodeUtf16 v ++ [0]) r
        (by simp) (by omega) (by norm_num at hlen ⊢; omega) h16
      rw [takeWhile_append_zero (encodeUtf16 v) [] hnzu,
        decodeUtf16_encodeUtf16 v hval] at h2
      push_cast at h2
      simp only [List.map_append, List.flatten_append, List.map_cons, List.map_nil,
        List.flatten_cons, List.flatten_nil, List.append_nil, List.append_assoc] at h2
      exact h2

/-- C2 witness for the amended claim: a NUL-free string mixing ASCII with an
embedded code point above the single-byte range round-trips. -/
theorem string_roundtrip_no_nul_witness :
    string_de (string_ser [97, 0x2603] ++ [9]) = .ok [97, 0x2603] [9] :=
  string_roundtrip_no_nul [97, 0x2603] [9] (by decide) (by decide) (by norm_num)

/-- C3: write_string emits exactly one of three prefix forms: prefix 0 and no
payload for the empty string; prefix L+1, the raw bytes and one zero byte for
a non-empty all-single-byte string of length L; prefix -(U+1), the U
little-endian UTF-16 units and one zero unit otherwise. -/
theorem write_string_prefix_forms (v : List Nat) :
    (v = [] → write_string v = write_u32_le 0)
    ∧ (v ≠ [] → (∀ c ∈ v, c < 0x80) →
        write_string v = write_u32_le (v.length + 1) ++ v ++ [0])
    ∧ ((¬ ∀ c ∈ v, c < 0x80) →
        write_string v =
          write_i32_le (-(((encodeUtf16 v).length : Int) + 1)) ++
            ((encodeUtf16 v).map write_u16_le).flatten ++ write_u16_le 0) := by
  refine ⟨fun h => ?_, fun hne hascii => ?_, fun hnascii => ?_⟩
  · subst h
    unfold write_string
    rw [if_pos rfl]
  · have hall : (v.all fun c => decide (c < 0x80)) = true := by
      simp only [List.all_eq_true, decide_eq_true_eq]
      exact hascii
    unfold write_string
    rw [if_neg hne, if_pos hall]
  · have hne : v ≠ [] := by
      intro h
      exact hnascii (by subst h; simp)
    have hall : (v.all fun c => decide (c < 0x80)) = false := by
      rw [Bool.eq_false_iff]
      intro hcon
      exact hnascii (by simpa using hcon)
    unfold write_string
    rw [if_neg hne, if_neg (by simp [hall] :
      ¬ (v.all fun c => decide (c < 0x80)) = true)]

/-- C3 witness: the three forms at concrete strings. -/
theorem write_string_prefix_forms_witness :
    write_string [] = write_u32_le 0
    ∧ write_string [104, 105] = write_u32_le ([104, 105].length + 1) ++ [104, 105] ++ [0]
    ∧ write_string [0x2603] =
        write_i32_le (-(((encodeUtf16 [0x2603]).length : Int) + 1)) ++
          ((encodeUtf16 [0x2603]).map write_u16_le).flatten ++ write_u16_le 0 :=
  ⟨(write_string_prefix_forms []).1 rfl,
   (write_string_prefix_forms [104, 105]).2.1 (by decide) (by decide),
   (write_string_prefix_forms [0x2603]).2.2 (by decide)⟩

/-- C5: for bool and every signed/unsigned 8/16/32/64-bit integer value in
range (including 0, max, min and -1), decode of encode returns the value and
consumes exactly the written bytes. -/
theorem primitive_roundtrips (r : List Nat) :
    (∀ b : Bool, bool_de (bool_ser b ++ r) = .ok b r)
    ∧ (∀ v : Nat, v < 2 ^ 8 → read_u8 (write_u8 v ++ r) = .ok v r)
    ∧ (∀ v : Nat, v < 2 ^ 16 → read_u16_le (write_u16_le v ++ r) = .ok v r)
    ∧ (∀ v : Nat, v < 2 ^ 32 → read_u32_le (write_u32_le v ++ r) = .ok v r)
    ∧ (∀ v : Nat, v < 2 ^ 64 → read_u64_le (write_u64_le v ++ r) = .ok v r)
    ∧ (∀ v : Int, -(2 ^ 7) ≤ v → v < 2 ^ 7 → read_i8 (write_i8 v ++ r) = .ok v r)
    ∧ (∀ v : Int, -(2 ^ 15) ≤ v → v < 2 ^ 15 →
        read_i16_le (write_i16_le v ++ r) = .ok v r)
    ∧ (∀ v : Int, -(2 ^ 31) ≤ v → v < 2 ^ 31 →
        read_i32_le (write_i32_le v ++ r) = .ok v r)
    ∧ (∀ v : Int, -(2 ^ 63) ≤ v → v < 2 ^ 63 →
        read_i64_le (write_i64_le v ++ r) = .ok v r) :=
  ⟨fun b => bool_roundtrip b r,
   fun v h => u8_roundtrip v r h,
   fun v h => u16_roundtrip v r h,
   fun v h => u32_roundtrip v r h,
   fun v h => u64_roundtrip v r h,
   fun v h1 h2 => i8_roundtrip v r h1 h2,
   fun v h1 h2 => i16_roundtrip v r h1 h2,
   fun v h1 h2 => i32_roundtrip v r h1 h2,
   fun v h1 h2 => i64_roundtrip v r h1 h2⟩

/-- C5 witness: boundary values for each primitive type. -/
theorem primitive_roundtrips_witness :
    bool_de (bool_ser true ++ []) = .ok true []
    ∧ read_u8 (write_u8 255 ++ []) = .ok 255 []
    ∧ read_u16_le (write_u16_le 0 ++ []) = .ok 0 []
    ∧ read_u32_le (write_u32_le 4294967295 ++ []) = .ok 4294967295 []
    ∧ read_u64_le (write_u64_le 18446744073709551615 ++ []) =
        .ok 18446744073709551615 []
    ∧ read_i8 (write_i8 (-128) ++ []) = .ok (-128) []
    ∧ read_i16_le (write_i16_le (-1) ++ []) = .ok (-1) []
    ∧ read_i32_le (write_i32_le 2147483647 ++ []) = .ok 2147483647 []
    ∧ read_i64_le (write_i64_le (-9223372036854775808) ++ []) =
        .ok (-9223372036854775808) [] := by
  obtain ⟨h1, h2, h3, h4, h5, h6, h7, h8, h9⟩ := primitive_roundtrips []
  exact ⟨h1 true, h2 255 (by norm_num), h3 0 (by norm_num), h4 4294967295 (by norm_num),
    h5 18446744073709551615 (by norm_num), h6 (-128) (by norm_num) (by norm_num),
    h7 (-1) (by norm_num) (by norm_num), h8 2147483647 (by norm_num) (by norm_num),
    h9 (-9223372036854775808) (by norm_num) (by norm_num)⟩

/-- C6: Vec encode writes the exact element count as a u32 followed by each
element in order, Vec decode reads the count and then exactly that many
elements, reproducing the sequence; for a 4-byte element type the encoding of
a sequence of n elements is exactly 4 + 4n bytes (16 bytes for 3 elements). -/
theorem vec_roundtrip {α : Type} (f : Reader α) (g : α → List Nat)
    (v : List α) (r : List Nat) (hlen : v.length < 2 ^ 32)
    (h : ∀ a ∈ v, ∀ t, f (g a ++ t) = .ok a t) :
    vec_ser g v = write_u32_le v.length ++ ser_array_default g v
    ∧ vec_de f (vec_ser g v ++ r) = .ok v r
    ∧ (∀ w : List Nat, (vec_ser write_u32_le w).length = 4 + 4 * w.length) := by
  refine ⟨rfl, vec_roundtrip_aux f g v r hlen h, fun w => ?_⟩
  simp only [vec_ser, List.length_append, ser_array_default_u32_length]
  rw [show (write_u32_le w.length).length = 4 from leBytes_length 4 _]

/-- C6 witness: three u32 elements, 16 bytes, round-trips. -/
theorem vec_roundtrip_witness :
    vec_de read_u32_le (vec_ser write_u32_le [1, 2, 3] ++ []) = .ok [1, 2, 3] []
    ∧ (vec_ser write_u32_le [1, 2, 3]).length = 16 := by
  have helem : ∀ a ∈ ([1, 2, 3] : List Nat), ∀ t,
      read_u32_le (write_u32_le a ++ t) = .ok a t := by
    intro a ha t
    have h3 : a = 1 ∨ a = 2 ∨ a = 3 := by simpa using ha
    rcases h3 with rfl | rfl | rfl <;> exact u32_roundtrip _ t (by norm_num)
  have h := vec_roundtrip read_u32_le write_u32_le [1, 2, 3] [] (by norm_num) helem
  refine ⟨h.2.1, ?_⟩
  have h16 := h.2.2 [1, 2, 3]
  simpa using h16

/-- C7: the context-parameterized Vec decode is exactly the element loop for
the supplied count: it reads no count field from the stream and consumes
exactly N elements' worth of bytes, returning the N decoded elements. -/
theorem vec_de_ctx_exact {α : Type} (f : Reader α) (g : α → List Nat)
    (v : List α) (r : List Nat)
    (h : ∀ a ∈ v, ∀ t, f (g a ++ t) = .ok a t) :
    vec_de_ctx f v.length ((v.map g).flatten ++ r) = .ok v r
    ∧ (∀ n : Nat, ∀ s : List Nat, vec_de_ctx f n s = read_array n f s) :=
  ⟨read_array_join f g v r h, fun _ _ => rfl⟩

/-- C7 witness: two u32 elements with trailing data left untouched. -/
theorem vec_de_ctx_exact_witness :
    vec_de_ctx read_u32_le ([5, 6] : List Nat).length
      ((([5, 6] : List Nat).map write_u32_le).flatten ++ [9]) = .ok [5, 6] [9] := by
  have helem : ∀ a ∈ ([5, 6] : List Nat), ∀ t,
      read_u32_le (write_u32_le a ++ t) = .ok a t := by
    intro a ha t
    have h2 : a = 5 ∨ a = 6 := by simpa using ha
    rcases h2 with rfl | rfl <;> exact u32_roundtrip _ t (by norm_num)
  exact (vec_de_ctx_exact read_u32_le write_u32_le [5, 6] [9] helem).1

/-- C8: the u8 bulk-buffer specializations (de_vec, de_array, ser_array) are
extensionally equal to the generic per-element defaults: same outcome on
every length, stream and buffer. -/
theorem u8_bulk_specializations_equiv :
    (∀ len : Nat, ∀ s : List Nat, u8_de_vec len s = de_vec_default read_u8 len s)
    ∧ (∀ n d : Nat, ∀ s : List Nat, u8_de_array n s = de_array_default read_u8 d n s)
    ∧ (∀ v : List Nat, (∀ b ∈ v, b < 256) →
        u8_ser_array v = ser_array_default u8_ser v) := by
  refine ⟨fun len s => (de_vec_default_u8_eq len s).symm, fun n d s => ?_,
    fun v h => (ser_array_default_u8_eq v h).symm⟩
  rw [de_array_default_eq_read_array]
  exact (de_vec_default_u8_eq n s).symm

/-- C8 witness: concrete buffers on both paths. -/
theorem u8_bulk_specializations_equiv_witness :
    u8_ser_array [7, 255] = ser_array_default u8_ser [7, 255]
    ∧ u8_de_vec 2 [1, 2, 3] = de_vec_default read_u8 2 [1, 2, 3] :=
  ⟨u8_bulk_specializations_equiv.2.2 [7, 255] (by decide),
   u8_bulk_specializations_equiv.1 2 [1, 2, 3]⟩

/-- C9: bool encode writes a full 32-bit little-endian word (1 for true, 0 for
false); bool decode reads a 32-bit little-endian word and returns whether it
is nonzero, succeeding on every stream holding at least 4 bytes. -/
theorem bool_wire_format :
    bool_ser true = write_u32_le 1
    ∧ bool_ser false = write_u32_le 0
    ∧ (∀ b : Bool, (bool_ser b).length = 4)
    ∧ (∀ s : List Nat, 4 ≤ s.length →
        bool_de s = .ok (leVal (s.take 4) != 0) (s.drop 4)) := by
  refine ⟨rfl, rfl, fun b => ?_, fun s hs => ?_⟩
  · cases b <;> rfl
  · simp only [bool_de, read_u32_le, readLE, readExact]
    rw [if_pos hs]
    rfl

/-- C9 witness: the out-of-range word 2 decodes to true without failing. -/
theorem bool_wire_format_witness : bool_de [2, 0, 0, 0] = .ok true [] := by
  have h := bool_wire_format.2.2.2 [2, 0, 0, 0] (by norm_num)
  exact h.trans (by decide)

/-- C10: whenever String decode succeeds, the returned string contains no NUL
character: both paths truncate at the first zero unit/byte, so no zero scalar
can appear in the result. -/
theorem string_de_no_nul (s v rest : List Nat) (h : string_de s = .ok v rest) :
    ∀ c ∈ v, c ≠ 0 := by
  simp only [string_de] at h
  cases hi : read_i32_le s with
  | ok len s1 =>
    rw [hi] at h
    simp only [PResult.bind] at h
    simp only [read_string] at h
    split at h
    · split at h
      · exact absurd h (by simp)
      cases ha : read_array (-len).toNat read_u16_le s1 with
      | ok chars rest2 =>
        rw [ha] at h
        simp only [PResult.bind] at h
        cases hd : decodeUtf16 (chars.takeWhile fun c => c != 0) with
        | some str =>
          rw [hd] at h
          injection h with h1 h2
          rw [← h1]
          exact decodeUtf16_ne_zero (chars.takeWhile fun c => c != 0).length
            _ str le_rfl hd (fun b hb => ne_zero_of_mem_takeWhile hb)
        | none =>
          rw [hd] at h
          simp at h
      | ioError =>
        rw [ha] at h
        simp [PResult.bind] at h
      | panicked =>
        rw [ha] at h
        simp [PResult.bind] at h
    · cases ha : readExact len.toNat s1 with
      | ok chars rest2 =>
        rw [ha] at h
        simp only [PResult.bind] at h
        injection h with h1 h2
        rw [← h1]
        exact fun c hc =>
          utf8Lossy_ne_zero _ (fun b hb => ne_zero_of_mem_takeWhile hb) c hc
      | ioError =>
        rw [ha] at h
        simp [PResult.bind] at h
      | panicked =>
        rw [ha] at h
        simp [PResult.bind] at h
  | ioError =>
    rw [hi] at h
    simp [PResult.bind] at h
  | panicked =>
    rw [hi] at h
    simp [PResult.bind] at h

/-- C10 witness: a concrete successful decode whose payload holds a zero
before the declared end; the result contains no NUL. -/
theorem string_de_no_nul_witness :
    string_de [3, 0, 0, 0, 104, 0, 105] = .ok [104] []
    ∧ ∀ c ∈ ([104] : List Nat), c ≠ 0 := by
  have hde : string_de [3, 0, 0, 0, 104, 0, 105] = .ok [104] [] := by decide
  exact ⟨hde, string_de_no_nul _ _ _ hde⟩

end Serman

